import Mathlib

/-!
Verification of the alias-resolution engine of the Terraforming Mars card-bot
repository: token extraction, normalization, the fuzzy catalog index, the
resolution pipelines (Reddit and Discord), and the durable custom-alias store.

Python strings are modelled as `List Char`; Python dicts (insertion-ordered)
as association lists; the CSV ledger file as a list of (name, alias) rows.
ASCII case mapping models Python's `str.upper`/`str.casefold`.
-/

abbrev Str := List Char

/-- Python whitespace for `str.strip` / `str.split` (ASCII): space, \t, \n, \v, \f, \r. -/
def isWS (c : Char) : Bool :=
  c.toNat = 32 || c.toNat = 9 || c.toNat = 10 || c.toNat = 11 || c.toNat = 12 || c.toNat = 13

/-- `s.lstrip()`. -/
def lstrip (s : Str) : Str := s.dropWhile isWS

/-- `s.rstrip()`. -/
def rstrip (s : Str) : Str := (s.reverse.dropWhile isWS).reverse

/-- `s.strip()`. -/
def strip (s : Str) : Str := rstrip (lstrip s)

/-- Split on runs of characters satisfying `p`, dropping empty pieces —
the semantics of Python's `str.split()` (with `p` the whitespace test). -/
def splitPredAux (p : Char → Bool) : Str → Str → List Str
  | [], acc => if acc = [] then [] else [acc.reverse]
  | c :: rest, acc =>
    if p c then
      if acc = [] then splitPredAux p rest []
      else acc.reverse :: splitPredAux p rest []
    else splitPredAux p rest (c :: acc)

def splitPred (p : Char → Bool) (s : Str) : List Str := splitPredAux p s []

/-- `s.split()` with no argument: split on whitespace runs, no empty pieces. -/
def splitWS (s : Str) : List Str := splitPred isWS s

/-- `sep.join(ws)`. -/
def joinSep (sep : Str) : List Str → Str
  | [] => []
  | [w] => w
  | w :: w' :: ws => w ++ sep ++ joinSep sep (w' :: ws)

/-- Single ASCII-range case mapping used to model Python `str.upper` per char. -/
def upChar (c : Char) : Char := c.toUpper

/-- Single ASCII-range case mapping used to model Python `str.casefold` per char. -/
def lowChar (c : Char) : Char := c.toLower

/-- `_norm_alias` from card_index_manager.py:
`" ".join(s.strip().split()).upper()`. -/
def _norm_alias (s : Str) : Str := (joinSep [' '] (splitWS (strip s))).map upChar

/-- `str.casefold()` (ASCII model), used by CustomAliasStore. -/
def casefold (s : Str) : Str := s.map lowChar

-- ### Data model (card_data_model.py)

/-- `Card` dataclass from card_data_model.py. -/
structure Card where
  name : Str
  cost : Str
  description : Str
  tags : List Str
  aliases : List Str
  number : Option Str := none
deriving DecidableEq, Repr

-- ### Insertion-ordered dict model (association list)

/-- `d.get(k)` on an insertion-ordered dict. -/
def aget (m : List (Str × Card)) (k : Str) : Option Card :=
  match m with
  | [] => none
  | (k', v) :: rest => if k' = k then some v else aget rest k

/-- `d[k] = v`: replace in place if present, else append (Python dict update). -/
def aset (m : List (Str × Card)) (k : Str) (v : Card) : List (Str × Card) :=
  match m with
  | [] => [(k, v)]
  | (k', v') :: rest => if k' = k then (k, v) :: rest else (k', v') :: aset rest k v

/-- `d.setdefault(k, v)`: insert only if the key is absent. -/
def asetdefault (m : List (Str × Card)) (k : Str) (v : Card) : List (Str × Card) :=
  if (aget m k).isSome then m else m ++ [(k, v)]

/-- `d.keys()` in insertion order. -/
def akeys (m : List (Str × Card)) : List Str := m.map Prod.fst

-- ### Catalog index (card_index_manager.py)

/-- `_common_prefix_len`. -/
def _common_prefix_len : Str → Str → Nat
  | a :: as, b :: bs => if a = b then _common_prefix_len as bs + 1 else 0
  | _, _ => 0

/-- Inner loop of the Wagner–Fischer row computation in `_levenshtein`:
walking `b` with `prev` positioned so its head is `prev[j-1]`, `left` the
value just written to `curr`. -/
def levRowAux (ca : Char) : Str → List Nat → Nat → List Nat
  | cb :: bs, p0 :: p1 :: ps, left =>
    let cost := if ca = cb then 0 else 1
    let v := min (p1 + 1) (min (left + 1) (p0 + cost))
    v :: levRowAux ca bs (p1 :: ps) v
  | _, _, _ => []

/-- Outer loop of `_levenshtein`: one row per character of `a`,
`i` the 1-based row index. -/
def levLoop (b : Str) : Str → List Nat → Nat → List Nat
  | [], prev, _ => prev
  | ca :: as, prev, i => levLoop b as (i :: levRowAux ca b prev i) (i + 1)

/-- `_levenshtein` from card_index_manager.py (iterative DP). -/
def _levenshtein (a b : Str) : Nat :=
  if a = b then 0
  else if a = [] then b.length
  else if b = [] then a.length
  else (levLoop b a (List.range (b.length + 1)) 1).getLastD 0

/-- `_split_words`: replace non-alphanumeric chars by spaces, then split. -/
def _split_words (key : Str) : List Str :=
  let cleaned := key.map (fun ch => if ch.isAlphanum then ch else ' ')
  (splitWS cleaned).filter (fun w => w ≠ [])

/-- `needle` is a prefix of `hay` (decidable helper for the substring test). -/
def headMatch : Str → Str → Bool
  | [], _ => true
  | _ :: _, [] => false
  | a :: as, b :: bs => a = b && headMatch as bs

/-- Python's `needle in hay` substring test. -/
def isSubstr (needle : Str) : Str → Bool
  | [] => headMatch needle []
  | c :: rest => headMatch needle (c :: rest) || isSubstr needle rest

/-- The 4-tuple score `(prefix_len, -edit_dist, substr_len, key_len)` computed
for one candidate key in `CardIndex.lookup`. -/
def scoreKey (norm_tok key : Str) : Int × Int × Int × Int :=
  let words := _split_words key
  let prefixLen := words.foldl (fun acc w => max acc (_common_prefix_len norm_tok w)) 0
  let editDist := words.foldl (fun acc w => min acc (_levenshtein norm_tok w)) (_levenshtein norm_tok key)
  let substrLen : Nat :=
    if isSubstr norm_tok key then norm_tok.length
    else if isSubstr key norm_tok then key.length
    else 0
  ((prefixLen : Int), -(editDist : Int), (substrLen : Int), (key.length : Int))

/-- Python's lexicographic `>` on 4-tuples of ints (`score > best_score`). -/
def tupGt (a b : Int × Int × Int × Int) : Prop :=
  a.1 > b.1 ∨ (a.1 = b.1 ∧ (a.2.1 > b.2.1 ∨ (a.2.1 = b.2.1 ∧
    (a.2.2.1 > b.2.2.1 ∨ (a.2.2.1 = b.2.2.1 ∧ a.2.2.2 > b.2.2.2)))))

instance (a b : Int × Int × Int × Int) : Decidable (tupGt a b) := by
  unfold tupGt; infer_instance

/-- The sentinel initial best score `(-1, -10_000, -1, -1)`. -/
def initScore : Int × Int × Int × Int := (-1, -10000, -1, -1)

/-- The candidate-scanning loop of the fuzzy phase: carries
`(best_key, best_score)` across the keys, keeping the first strict maximum. -/
def fuzzyFold (norm_tok : Str) (keys : List Str)
    (best : Option Str × (Int × Int × Int × Int)) : Option Str × (Int × Int × Int × Int) :=
  keys.foldl
    (fun best key =>
      let score := scoreKey norm_tok key
      if tupGt score best.2 then (some key, score) else best)
    best

/-- `CardIndex` dataclass. -/
structure CardIndex where
  by_alias : List (Str × Card)
  by_name : List (Str × Card)
deriving DecidableEq, Repr

/-- One iteration of the `for c in cards` loop in `CardIndex.build`:
`name_map[name_key] = c`, `alias_map.setdefault(norm(alias), c)` for each
alias, then `alias_map.setdefault(name_key, c)`. -/
def buildStep (p : List (Str × Card) × List (Str × Card)) (c : Card) :
    List (Str × Card) × List (Str × Card) :=
  let name_key := _norm_alias c.name
  let name_map := aset p.2 name_key c
  let alias_map := c.aliases.foldl (fun am al => asetdefault am (_norm_alias al) c) p.1
  let alias_map := asetdefault alias_map name_key c
  (alias_map, name_map)

/-- `CardIndex.build`. -/
def CardIndex.build (cards : List Card) : CardIndex :=
  let p := cards.foldl buildStep ([], [])
  ⟨p.1, p.2⟩

/-- Acceptance gate of the fuzzy phase:
`prefix_len > 0 or substr_len > 0 or edit_dist <= 2`. -/
def gatePass (sc : Int × Int × Int × Int) : Prop :=
  sc.1 > 0 ∨ sc.2.2.1 > 0 ∨ -sc.2.1 ≤ 2

instance (sc : Int × Int × Int × Int) : Decidable (gatePass sc) := by
  unfold gatePass; infer_instance

/-- `CardIndex.lookup`. The `if best_key:` truthiness test of the source makes
an empty-string best key fall through to `None`. -/
def CardIndex.lookup (idx : CardIndex) (token : Str) : Option Card :=
  if token = [] then none
  else
    let norm_tok := _norm_alias token
    match aget idx.by_alias norm_tok with
    | some exact => some exact
    | none =>
      match fuzzyFold norm_tok (akeys idx.by_alias) (none, initScore) with
      | (some best_key, best_score) =>
        if best_key ≠ [] ∧ gatePass best_score then aget idx.by_alias best_key
        else none
      | (none, _) => none

-- ### Token extraction (alias_extraction_and_card_resolution.py)

/-- `"http://" in c or "https://" in c`. -/
def containsHttp (s : Str) : Bool :=
  isSubstr "http://".toList s || isSubstr "https://".toList s

/-- Head-of-list test used for the `(?!\()` negative lookahead. -/
def headParen : Str → Bool
  | '(' :: _ => true
  | _ => false

/-- Non-overlapping left-to-right matching of `\[([^\[\]\n]{1,40})\](?!\()`
(`BRACKETED_ALIAS_RE.finditer`): at a `[`, greedily take up to 40 chars that
are not brackets or newlines; the match succeeds only if a `]` follows
immediately and is not itself followed by `(`. Since the content class
excludes `]`, no shorter backtracking content can succeed, so on failure the
scan resumes at the next position; on success it resumes after the `]`. -/
def scanBracketF : Nat → Str → List Str
  | 0, _ => []
  | _, [] => []
  | fuel + 1, c :: rest =>
    if c = '[' then
      let run := (rest.takeWhile (fun ch => ¬(ch = '[' ∨ ch = ']' ∨ ch = '\n'))).take 40
      if (rest.drop run.length).take 1 = [']'] ∧
         1 ≤ run.length ∧ headParen (rest.drop (run.length + 1)) = false then
        run :: scanBracketF fuel (rest.drop (run.length + 1))
      else scanBracketF fuel rest
    else scanBracketF fuel rest

def scanBracket (s : Str) : List Str := scanBracketF s.length s

/-- `extract_aliases`. -/
def extract_aliases (body : Str) : List Str :=
  if body = [] then []
  else
    let candidates := (scanBracket body).map strip
    candidates.filter (fun c => !containsHttp c && decide (1 ≤ c.length) && decide (c.length ≤ 40))

-- ### Discord trigger extraction (discord_alias_responder_module.py)

/-- Head test for a closing `]]`. -/
def twoClose : Str → Bool
  | ']' :: ']' :: _ => true
  | _ => false

/-- Non-overlapping left-to-right matching of `\[\[([^\[\]]+)\]\]`
(`TRIGGER_RE.finditer`): at `[[`, greedily take chars that are not brackets
(no length cap, newlines allowed); the match succeeds only if `]]` follows
immediately. As the content class excludes `]`, no backtracking content can
succeed, so on failure the scan resumes at the next position. -/
def scanTriggerF : Nat → Str → List Str
  | 0, _ => []
  | _, [] => []
  | _, [_] => []
  | fuel + 1, c1 :: c2 :: rest2 =>
    if c1 = '[' then
      if c2 = '[' then
        let run := rest2.takeWhile (fun ch => ¬(ch = '[' ∨ ch = ']'))
        if run ≠ [] ∧ twoClose (rest2.drop run.length) then
          run :: scanTriggerF fuel (rest2.drop (run.length + 2))
        else scanTriggerF fuel (c2 :: rest2)
      else scanTriggerF fuel (c2 :: rest2)
    else scanTriggerF fuel (c2 :: rest2)

def scanTrigger (s : Str) : List Str := scanTriggerF s.length s

/-- Separator class of the fallback splitter: `[,\|/\n]+`. -/
def isSep (c : Char) : Bool := c = ',' || c = '|' || c = '/' || c = '\n'

/-- `\w` (ASCII model): alphanumeric or underscore. -/
def isWordChar (c : Char) : Bool := c.isAlphanum || c = '_'

/-- `re.search(r"[.!?]\s", text)`: sentence punctuation followed by whitespace. -/
def punctWS : Str → Bool
  | a :: b :: rest => ((a = '.' || a = '!' || a = '?') && isWS b) || punctWS (b :: rest)
  | _ => false

/-- `re.search(r"^\w+\s+\w+\s+\w+", text)`: at least three words at the start.
`\w` and `\s` are disjoint classes, so maximal munch is exact. -/
def startsThreeWords (t : Str) : Bool :=
  let r1 := t.dropWhile isWordChar
  let r2 := r1.dropWhile isWS
  let r3 := r2.dropWhile isWordChar
  let r4 := r3.dropWhile isWS
  !(t.takeWhile isWordChar).isEmpty && !(r1.takeWhile isWS).isEmpty &&
  !(r2.takeWhile isWordChar).isEmpty && !(r3.takeWhile isWS).isEmpty &&
  !(r4.takeWhile isWordChar).isEmpty

/-- `DiscordAliasResponder._extract_fallback_token_list`. -/
def _extract_fallback_token_list (raw : Str) : List Str :=
  let text := strip raw
  if text = [] then []
  else if isSubstr "[[".toList text && isSubstr "]]".toList text then []
  else
    let has_separators := text.any isSep
    let looks_like_sentence := punctWS text || startsThreeWords text
    if !has_separators && looks_like_sentence then []
    else
      let parts := ((splitPred isSep text).map strip).filter (fun p => p ≠ [])
      if !(decide (1 ≤ parts.length) && decide (parts.length ≤ 8)) then []
      else parts.filter (fun p => !containsHttp p && decide (1 ≤ p.length) && decide (p.length ≤ 60))

/-- `DiscordAliasResponder.extract_triggers`. -/
def extract_triggers (message : Str) : List Str :=
  let tokens := ((scanTrigger message).map strip).filter (fun t => t ≠ [])
  if tokens ≠ [] then tokens
  else _extract_fallback_token_list message

-- ### Reddit resolution pipeline (alias_extraction_and_card_resolution.py)

/-- The token loop of `resolve_cards_for_comment`: `seen` holds the
normalized keys already processed, `resolved` the accumulated cards.
The key expression `" ".join(tok.strip().split()).upper()` is the same
computation as `_norm_alias tok`. -/
def resolveLoop (lookup_fn : Str → Option Card) :
    List Str → List Str → List Card → List Card
  | [], _, resolved => resolved
  | tok :: toks, seen, resolved =>
    let key := _norm_alias tok
    if key ∈ seen then resolveLoop lookup_fn toks seen resolved
    else
      match lookup_fn tok with
      | some card =>
        if resolved.all (fun c => card.name ≠ c.name) then
          resolveLoop lookup_fn toks (key :: seen) (resolved ++ [card])
        else resolveLoop lookup_fn toks (key :: seen) resolved
      | none => resolveLoop lookup_fn toks (key :: seen) resolved

/-- `resolve_cards_for_comment`. -/
def resolve_cards_for_comment (text : Str) (lookup_fn : Str → Option Card) : List Card :=
  resolveLoop lookup_fn (extract_aliases text) [] []

/-- Case-insensitive order-preserving dedup over `_norm_alias`-keys, relative
to an already-seen set; describes which tokens the resolution loop actually
processes. -/
def dedupNormAux : List Str → List Str → List Str
  | [], _ => []
  | t :: ts, seen =>
    if _norm_alias t ∈ seen then dedupNormAux ts seen
    else t :: dedupNormAux ts (_norm_alias t :: seen)

/-- Order-preserving dedup over `tok.upper()` keys (no whitespace folding),
relative to an already-seen set; describes which tokens the Discord
`handle_message` loop actually processes. -/
def dedupUpperAux : List Str → List Str → List Str
  | [], _ => []
  | t :: ts, seen =>
    if t.map upChar ∈ seen then dedupUpperAux ts seen
    else t :: dedupUpperAux ts (t.map upChar :: seen)

-- ### Discord responder (discord_alias_responder_module.py)

/-- `str.replace(a, r)` for a single-character pattern. -/
def replaceChar (s : Str) (a : Char) (r : Str) : Str :=
  s.flatMap (fun c => if c = a then r else [c])

/-- U+200B zero-width space. -/
def zwsp : Char := Char.ofNat 8203

/-- Backtick character. -/
def backquoteChar : Char := Char.ofNat 96

/-- Single-quote character. -/
def squoteChar : Char := Char.ofNat 39

/-- `_escape_discord`. -/
def _escape_discord (s : Str) : Str :=
  replaceChar (replaceChar s '@' ['@', zwsp]) backquoteChar [squoteChar]

/-- `str.title()` (ASCII model): uppercase a letter that follows a
non-letter, lowercase a letter that follows a letter. -/
def titleAux : Str → Bool → Str
  | [], _ => []
  | c :: rest, prevAlpha =>
    (if c.isAlpha then (if prevAlpha then lowChar c else upChar c) else c) ::
      titleAux rest c.isAlpha

def titleCase (s : Str) : Str := titleAux s false

/-- `_format_tags`. -/
def _format_tags (tags : List Str) : Str :=
  let pretty := (tags.filter (fun t => t ≠ [] ∧ strip t ≠ [])).map
    (fun t => titleCase (strip (replaceChar t '_' [' '])))
  let joined := joinSep ", ".toList pretty
  replaceChar (replaceChar (replaceChar joined '[' []) ']' []) '\"' []

/-- `_format_heading`: link the heading when `card.number` is truthy. -/
def _format_heading (card : Card) : Str :=
  let name := _escape_discord card.name
  match card.number with
  | some number =>
    if number ≠ [] then
      '[' :: name ++ "](https://ssimeonoff.github.io/cards-list".toList ++ number ++ [')']
    else name
  | none => name

/-- `_format_card_for_discord`. -/
def _format_card_for_discord (card : Card) : Str :=
  let heading := _format_heading card
  let cost := _escape_discord card.cost
  let tags := _format_tags card.tags
  let desc := _escape_discord card.description
  let lines := ["**".toList ++ heading ++ "**".toList]
  let lines := if cost ≠ [] then lines ++ ["Cost: ".toList ++ cost] else lines
  let lines := if tags ≠ [] then lines ++ ["Tags: ".toList ++ tags] else lines
  let lines := if desc ≠ [] then lines ++ [desc] else lines
  joinSep ['\n'] lines

/-- The token loop of `DiscordAliasResponder.handle_message`: dedups tokens by
`tok.upper()` only, then appends one formatted block per resolved card.
`_lookup` strips the token before `index.lookup`. -/
def handleLoop (idx : CardIndex) : List Str → List Str → List Str → List Str
  | [], _, results => results
  | tok :: toks, seen, results =>
    let key := tok.map upChar
    if key ∈ seen then handleLoop idx toks seen results
    else
      match idx.lookup (strip tok) with
      | some card => handleLoop idx toks (key :: seen) (results ++ [_format_card_for_discord card])
      | none => handleLoop idx toks (key :: seen) results

/-- `DiscordAliasResponder` dataclass (the fields the handler reads). -/
structure DiscordAliasResponder where
  index : CardIndex
  reply_footer : Str := []

/-- `DiscordAliasResponder.handle_message`. -/
def handle_message (r : DiscordAliasResponder) (message : Str) : Option Str :=
  let tokens := extract_triggers message
  if tokens = [] then none
  else
    let results := handleLoop r.index tokens [] []
    if results = [] then none
    else
      let body := joinSep "\n\n".toList results
      let footer := if r.reply_footer ≠ [] then '\n' :: '\n' :: r.reply_footer else []
      some (body ++ footer)

-- ### Custom alias store (CustomAliasStore.py)

/-- In-memory part of `CustomAliasStore`: `_aliases_by_name` (dict of sets,
modelled as insertion-ordered association list of insertion-ordered
duplicate-free lists) and `_seen_lower`. -/
structure AliasMem where
  aliases_by_name : List (Str × List Str)
  seen_lower : List (Str × Str)
deriving DecidableEq, Repr

/-- `set.add` on the insertion-ordered duplicate-free list model. -/
def setAdd (l : List Str) (x : Str) : List Str := if x ∈ l then l else l ++ [x]

/-- `self._aliases_by_name.setdefault(name, set()).add(al)`. -/
def mapSetAdd (m : List (Str × List Str)) (name al : Str) : List (Str × List Str) :=
  match m with
  | [] => [(name, [al])]
  | (n, s) :: rest =>
    if n = name then (n, setAdd s al) :: rest else (n, s) :: mapSetAdd rest name al

/-- `CustomAliasStore._add_in_memory`. -/
def _add_in_memory (mem : AliasMem) (name al : Str) : AliasMem :=
  let key := (casefold name, casefold al)
  if key ∈ mem.seen_lower then mem
  else
    { seen_lower := mem.seen_lower ++ [key],
      aliases_by_name := mapSetAdd mem.aliases_by_name name al }

/-- `CustomAliasStore._load_all`, over the data rows of the CSV file
(the header row and CSV encoding are abstracted away: each row is the
already-parsed (Name, Alias) pair of cells). -/
def _load_all (rows : List (Str × Str)) : AliasMem :=
  rows.foldl
    (fun mem row =>
      let name := strip row.1
      let al := strip row.2
      if name = [] ∨ al = [] then mem else _add_in_memory mem name al)
    ⟨[], []⟩

/-- `CustomAliasStore` state: the backing file's data rows plus the
in-memory maps. -/
structure CustomAliasStore where
  file : List (Str × Str)
  mem : AliasMem
deriving DecidableEq, Repr

/-- `CustomAliasStore.add_alias`. The `appendOk` flag models whether the
durable file append raises: the source appends to the file first and only
then updates memory, so when the append raises, the exception propagates
(`Except.error ()`) and the returned state is the pre-call state. -/
def add_alias (st : CustomAliasStore) (name al : Str) (appendOk : Bool) :
    CustomAliasStore × Except Unit Bool :=
  let name_clean := strip name
  let alias_clean := strip al
  if name_clean = [] ∨ alias_clean = [] then (st, Except.ok false)
  else
    let key := (casefold name_clean, casefold alias_clean)
    if key ∈ st.mem.seen_lower then (st, Except.ok false)
    else if appendOk = false then (st, Except.error ())
    else
      ({ file := st.file ++ [(name_clean, alias_clean)],
         mem := _add_in_memory st.mem name_clean alias_clean }, Except.ok true)

-- ### Lemmas about the association-list dict

/-- Left-biased choice on options (collision bookkeeping helper). -/
def firstSome (a b : Option Card) : Option Card :=
  match a with
  | some v => some v
  | none => b

-- ### First-wins / last-wins characterization of CardIndex.build

/-- The normalized keys one record registers into `by_alias`
(its own name plus every declared alias). -/
def recordKeys (c : Card) : List Str :=
  _norm_alias c.name :: c.aliases.map _norm_alias

/-- Stated from the spec's collision policy ("the first record encountered
for that key wins"): the first record in input order registering `k`. -/
def specFirstAlias : List Card → Str → Option Card
  | [], _ => none
  | c :: rest, k => if k ∈ recordKeys c then some c else specFirstAlias rest k

/-- Plain-assignment semantics for `by_name`: the last record in input order
whose normalized name is `k`. -/
def specLastName : List Card → Str → Option Card
  | [], _ => none
  | c :: rest, k =>
    match specLastName rest k with
    | some c' => some c'
    | none => if _norm_alias c.name = k then some c else none

-- ### Concrete fixtures

def amCard : Card :=
  { name := "Asteroid Mining".toList, cost := [], description := "Mine an asteroid".toList,
    tags := [], aliases := ["Space Miner".toList] }

def amIndex : CardIndex := CardIndex.build [amCard]

def swpFirst : Card :=
  { name := "Solar Wind Power".toList, cost := [], description := "first".toList,
    tags := [], aliases := [] }

def swpSecond : Card :=
  { name := "Solar Wind Power".toList, cost := [], description := "second".toList,
    tags := [], aliases := [] }

def qqCard : Card :=
  { name := "QQQQQQ".toList, cost := [], description := [], tags := [], aliases := [] }

def qqIndex : CardIndex := CardIndex.build [qqCard]

def emptyStore : CustomAliasStore := { file := [], mem := ⟨[], []⟩ }

def ctcName : Str := "Colonizer Training Camp".toList

def ctcAlias : Str := "CTC".toList

def ctcName2 : Str := "colonizer training camp".toList

def ctcAlias2 : Str := "ctc".toList

-- ### Char lemmas

theorem toNat_ofNat_valid (n : Nat) (h : n < 55296) : (Char.ofNat n).toNat = n := by
  unfold Char.ofNat
  rw [dif_pos (Or.inl h)]
  unfold Char.ofNatAux Char.toNat
  simp [UInt32.toNat, UInt32.ofNatCore]

theorem upChar_idem (c : Char) : upChar (upChar c) = upChar c := by
  unfold upChar Char.toUpper
  by_cases h : c.toNat ≥ 97 ∧ c.toNat ≤ 122
  · rw [if_pos h]
    have h2 : (Char.ofNat (c.toNat - 32)).toNat = c.toNat - 32 :=
      toNat_ofNat_valid _ (by omega)
    rw [if_neg (by rw [h2]; omega)]
  · rw [if_neg h, if_neg h]

theorem upChar_ws (c : Char) : isWS (upChar c) = isWS c := by
  unfold upChar Char.toUpper
  by_cases h : c.toNat ≥ 97 ∧ c.toNat ≤ 122
  · rw [if_pos h]
    have h2 : (Char.ofNat (c.toNat - 32)).toNat = c.toNat - 32 :=
      toNat_ofNat_valid _ (by omega)
    have l1 : isWS (Char.ofNat (c.toNat - 32)) = false := by
      unfold isWS
      rw [h2]
      simp only [Bool.or_eq_false_iff, decide_eq_false_iff_not]
      omega
    have l2 : isWS c = false := by
      unfold isWS
      simp only [Bool.or_eq_false_iff, decide_eq_false_iff_not]
      omega
    rw [l1, l2]
  · rw [if_neg h]

theorem upChar_space : upChar ' ' = ' ' := by decide

-- ### split/join/strip lemmas

theorem splitPredAux_words (p : Char → Bool) :
    ∀ (s : Str) (acc : Str), (∀ c ∈ acc, p c = false) →
      ∀ w ∈ splitPredAux p s acc, w ≠ [] ∧ ∀ c ∈ w, p c = false := by
  intro s
  induction s with
  | nil =>
    intro acc hacc w hw
    unfold splitPredAux at hw
    by_cases h : acc = []
    · simp [h] at hw
    · simp [h] at hw
      subst hw
      refine ⟨by simpa using h, ?_⟩
      intro c hc
      exact hacc c (List.mem_reverse.mp hc)
  | cons c rest ih =>
    intro acc hacc w hw
    unfold splitPredAux at hw
    by_cases hp : p c
    · simp only [hp, if_true] at hw
      by_cases h : acc = []
      · simp only [h, if_true] at hw
        exact ih [] (by simp) w hw
      · simp only [h, if_false] at hw
        rcases List.mem_cons.mp hw with h1 | h2
        · subst h1
          refine ⟨by simpa using h, ?_⟩
          intro d hd
          exact hacc d (List.mem_reverse.mp hd)
        · exact ih [] (by simp) w h2
    · simp only [hp, if_false] at hw
      refine ih (c :: acc) ?_ w hw
      intro d hd
      rcases List.mem_cons.mp hd with h1 | h2
      · subst h1; simpa using hp
      · exact hacc d h2

theorem splitPred_words (p : Char → Bool) (s : Str) :
    ∀ w ∈ splitPred p s, w ≠ [] ∧ ∀ c ∈ w, p c = false :=
  splitPredAux_words p s [] (by simp)

theorem splitPredAux_seg (p : Char → Bool) :
    ∀ (w : Str) (t acc : Str), (∀ c ∈ w, p c = false) →
      splitPredAux p (w ++ t) acc = splitPredAux p t (w.reverse ++ acc) := by
  intro w
  induction w with
  | nil => intro t acc _; simp
  | cons c cs ih =>
    intro t acc hw
    have hc : p c = false := hw c (by simp)
    rw [List.cons_append]
    have step : splitPredAux p (c :: (cs ++ t)) acc = splitPredAux p (cs ++ t) (c :: acc) := by
      simp [splitPredAux, hc]
    rw [step, ih t (c :: acc) (fun d hd => hw d (by simp [hd]))]
    simp

theorem splitPredAux_allsep (p : Char → Bool) :
    ∀ (u : Str), (∀ c ∈ u, p c = true) → splitPredAux p u [] = [] := by
  intro u
  induction u with
  | nil => intro _; rfl
  | cons c cs ih =>
    intro hu
    have hc : p c = true := hu c (by simp)
    simp only [splitPredAux, hc, if_true, if_pos rfl]
    exact ih (fun d hd => hu d (by simp [hd]))

theorem splitPredAux_trailing (p : Char → Bool) :
    ∀ (s u acc : Str), (∀ c ∈ u, p c = true) →
      splitPredAux p (s ++ u) acc = splitPredAux p s acc := by
  intro s
  induction s with
  | nil =>
    intro u acc hu
    cases u with
    | nil => simp
    | cons c cs =>
      have hc : p c = true := hu c (by simp)
      simp only [List.nil_append]
      simp only [splitPredAux, hc, if_true]
      rw [splitPredAux_allsep p cs (fun d hd => hu d (by simp [hd]))]
  | cons c cs ih =>
    intro u acc hu
    rw [List.cons_append]
    by_cases hp : p c
    · simp only [splitPredAux, hp, if_true]
      by_cases h : acc = [] <;> simp only [h, if_true, if_false] <;> rw [ih u [] hu]
    · have hp' : p c = false := by simpa using hp
      simp only [splitPredAux, hp', Bool.false_eq_true, if_false]
      rw [ih u (c :: acc) hu]

theorem splitPredAux_leading (p : Char → Bool) :
    ∀ (s : Str), splitPredAux p (s.dropWhile p) [] = splitPredAux p s [] := by
  intro s
  induction s with
  | nil => rfl
  | cons c cs ih =>
    by_cases hp : p c
    · rw [List.dropWhile_cons_of_pos hp, ih]
      symm
      simp [splitPredAux, hp]
    · rw [List.dropWhile_cons_of_neg hp]

theorem splitPred_join (p : Char → Bool) (sc : Char) (hsc : p sc = true) :
    ∀ ws : List Str, (∀ w ∈ ws, w ≠ [] ∧ ∀ c ∈ w, p c = false) →
      splitPred p (joinSep [sc] ws) = ws := by
  intro ws
  induction ws with
  | nil => intro _; rfl
  | cons w ws ih =>
    intro hws
    obtain ⟨hw, hwc⟩ := hws w (by simp)
    cases ws with
    | nil =>
      show splitPred p w = [w]
      unfold splitPred
      have := splitPredAux_seg p w [] [] hwc
      simp only [List.append_nil] at this
      rw [this]
      simp only [splitPredAux, List.append_nil]
      rw [if_neg (by simpa using hw)]
      simp
    | cons w' ws' =>
      show splitPred p (w ++ [sc] ++ joinSep [sc] (w' :: ws')) = w :: w' :: ws'
      unfold splitPred
      rw [List.append_assoc, splitPredAux_seg p w _ [] hwc]
      simp only [List.append_nil, List.singleton_append]
      have hrev : w.reverse ≠ [] := by simpa using hw
      simp only [splitPredAux, hsc, if_true, if_neg hrev, List.reverse_reverse]
      congr 1
      exact ih (fun v hv => hws v (by simp [hv]))

theorem dropWhile_idem (p : Char → Bool) (l : Str) :
    List.dropWhile p (List.dropWhile p l) = List.dropWhile p l := by
  induction l with
  | nil => rfl
  | cons c cs ih =>
    by_cases hp : p c
    · rw [List.dropWhile_cons_of_pos hp, ih]
    · rw [List.dropWhile_cons_of_neg hp, List.dropWhile_cons_of_neg hp]

theorem lstrip_idem (s : Str) : lstrip (lstrip s) = lstrip s :=
  dropWhile_idem isWS s

theorem rstrip_idem (s : Str) : rstrip (rstrip s) = rstrip s := by
  unfold rstrip
  rw [List.reverse_reverse, dropWhile_idem]

theorem rstrip_append (y : Str) :
    rstrip y ++ (y.reverse.takeWhile isWS).reverse = y := by
  unfold rstrip
  rw [← List.reverse_append, List.takeWhile_append_dropWhile, List.reverse_reverse]

theorem rstrip_ws_tail (y : Str) : ∀ c ∈ (y.reverse.takeWhile isWS).reverse, isWS c = true := by
  intro c hc
  exact List.mem_takeWhile_imp (List.mem_reverse.mp hc)

theorem splitPred_strip (s : Str) : splitPred isWS (strip s) = splitPred isWS s := by
  unfold strip
  have h1 : splitPred isWS (rstrip (lstrip s)) = splitPred isWS (lstrip s) := by
    unfold splitPred
    conv_rhs => rw [← rstrip_append (lstrip s)]
    rw [splitPredAux_trailing isWS _ _ [] (rstrip_ws_tail (lstrip s))]
  rw [h1]
  unfold splitPred lstrip
  exact splitPredAux_leading isWS s

theorem lstrip_rstrip (y : Str) (h : lstrip y = y) : lstrip (rstrip y) = rstrip y := by
  rcases heq : rstrip y with _ | ⟨d, t⟩
  · rfl
  · have hpre := rstrip_append y
    rw [heq] at hpre
    have hd : isWS d = false := by
      by_contra hd
      have hd' : isWS d = true := by simpa using hd
      rw [← hpre] at h
      unfold lstrip at h
      rw [List.cons_append, List.dropWhile_cons_of_pos hd'] at h
      have := congrArg List.length h
      have hlen := (List.dropWhile_sublist (l := t ++ (y.reverse.takeWhile isWS).reverse) isWS).length_le
      simp at this hlen
      omega
    unfold lstrip
    rw [List.dropWhile_cons_of_neg (by simp [hd])]

theorem strip_idem (s : Str) : strip (strip s) = strip s := by
  show rstrip (lstrip (rstrip (lstrip s))) = rstrip (lstrip s)
  rw [lstrip_rstrip (lstrip s) (lstrip_idem s), rstrip_idem]

theorem rstrip_sublist (y : Str) : (rstrip y).Sublist y := by
  unfold rstrip
  rw [← List.reverse_sublist, List.reverse_reverse]
  exact List.dropWhile_sublist isWS

theorem strip_sublist (s : Str) : (strip s).Sublist s :=
  (rstrip_sublist (lstrip s)).trans (List.dropWhile_sublist isWS)

theorem map_joinSep (f : Char → Char) (sep : Str) :
    ∀ ws : List Str, (joinSep sep ws).map f = joinSep (sep.map f) (ws.map (List.map f)) := by
  intro ws
  induction ws with
  | nil => rfl
  | cons w ws ih =>
    cases ws with
    | nil => rfl
    | cons w' ws' =>
      show (w ++ sep ++ joinSep sep (w' :: ws')).map f = _
      simp only [List.map_append, ih]
      rfl

/-- C9 helper: the claim proper. `_norm_alias` is idempotent. -/
theorem norm_alias_idem (s : Str) : _norm_alias (_norm_alias s) = _norm_alias s := by
  unfold _norm_alias
  set ws := splitWS (strip s) with hws
  have hwords : ∀ w ∈ ws, w ≠ [] ∧ ∀ c ∈ w, isWS c = false := by
    intro w hw
    have := splitPred_words isWS (strip s) w (by simpa [hws, splitWS] using hw)
    exact this
  have hup : (joinSep [' '] ws).map upChar = joinSep [' '] (ws.map (List.map upChar)) := by
    rw [map_joinSep]
    simp [upChar_space]
  have hwords' : ∀ w ∈ ws.map (List.map upChar), w ≠ [] ∧ ∀ c ∈ w, isWS c = false := by
    intro w hw
    rcases List.mem_map.mp hw with ⟨v, hv, rfl⟩
    obtain ⟨hv1, hv2⟩ := hwords v hv
    constructor
    · simpa using hv1
    · intro c hc
      rcases List.mem_map.mp hc with ⟨d, hd, rfl⟩
      rw [upChar_ws]
      exact hv2 d hd
  rw [hup]
  unfold splitWS
  rw [splitPred_strip, splitPred_join isWS ' ' (by decide) _ hwords']
  rw [← hup, List.map_map]
  have : upChar ∘ upChar = upChar := by
    funext c
    exact upChar_idem c
  rw [this]

theorem aget_nil (k : Str) : aget [] k = none := rfl

theorem aget_cons (a : Str) (b : Card) (rest : List (Str × Card)) (k : Str) :
    aget ((a, b) :: rest) k = if a = k then some b else aget rest k := rfl

theorem firstSome_none (b : Option Card) : firstSome none b = b := rfl

theorem firstSome_some (v : Card) (b : Option Card) : firstSome (some v) b = some v := rfl

theorem aget_append (m m' : List (Str × Card)) (k : Str) :
    aget (m ++ m') k = firstSome (aget m k) (aget m' k) := by
  induction m with
  | nil => simp [aget_nil, firstSome_none]
  | cons e rest ih =>
    obtain ⟨a, b⟩ := e
    rw [List.cons_append, aget_cons, aget_cons]
    by_cases h : a = k
    · simp [h, firstSome_some]
    · simp [h, ih]

theorem aget_aset (m : List (Str × Card)) (k : Str) (v : Card) (j : Str) :
    aget (aset m k v) j = if k = j then some v else aget m j := by
  induction m with
  | nil =>
    show aget [(k, v)] j = _
    rw [aget_cons]
  | cons e rest ih =>
    obtain ⟨a, b⟩ := e
    show aget (if a = k then (k, v) :: rest else (a, b) :: aset rest k v) j = _
    by_cases hak : a = k
    · subst hak
      rw [if_pos rfl, aget_cons, aget_cons]
      by_cases haj : a = j <;> simp [haj]
    · simp only [if_neg hak]
      rw [aget_cons]
      by_cases haj : a = j
      · have hkj : ¬ k = j := fun h => hak (haj.trans h.symm)
        simp [haj, hkj, aget_cons]
      · rw [if_neg haj, ih, aget_cons, if_neg haj]

theorem aget_asetdefault (m : List (Str × Card)) (k : Str) (v : Card) (j : Str) :
    aget (asetdefault m k v) j =
      firstSome (aget m j) (if k = j then some v else none) := by
  unfold asetdefault
  rcases hmk : aget m k with _ | w
  · simp only [hmk, Option.isSome_none, Bool.false_eq_true, if_false]
    rw [aget_append]
    congr 1
  · simp only [hmk, Option.isSome_some, if_true]
    rcases hmj : aget m j with _ | u
    · rw [firstSome_none]
      by_cases h : k = j
      · rw [h] at hmk
        rw [hmk] at hmj
        cases hmj
      · simp [h]
    · rw [firstSome_some]

theorem firstSome_self (a : Option Card) : firstSome a none = a := by
  cases a <;> rfl

theorem aget_aliasfold (c : Card) (aliases : List Str) (am : List (Str × Card)) (k : Str) :
    aget (aliases.foldl (fun am al => asetdefault am (_norm_alias al) c) am) k =
      firstSome (aget am k)
        (if k ∈ aliases.map _norm_alias then some c else none) := by
  induction aliases generalizing am with
  | nil =>
    simp only [List.foldl_nil, List.map_nil, List.not_mem_nil, if_false]
    exact (firstSome_self _).symm
  | cons al rest ih =>
    rw [List.foldl_cons, ih, aget_asetdefault]
    rcases aget am k with _ | w
    · rw [firstSome_none, firstSome_none]
      by_cases h : _norm_alias al = k
      · simp [h, firstSome_some]
      · rw [if_neg h, firstSome_none]
        by_cases hm : k ∈ rest.map _norm_alias
        · rw [if_pos hm, if_pos (by simp [hm])]
        · rw [if_neg hm, if_neg (by
            simp only [List.map_cons, List.mem_cons]
            push_neg
            exact ⟨fun hh => h hh.symm, hm⟩)]
    · rw [firstSome_some, firstSome_some, firstSome_some]

theorem buildStep_alias (p : List (Str × Card) × List (Str × Card)) (c : Card) (k : Str) :
    aget (buildStep p c).1 k =
      firstSome (aget p.1 k) (if k ∈ recordKeys c then some c else none) := by
  show aget (asetdefault (c.aliases.foldl (fun am al => asetdefault am (_norm_alias al) c) p.1)
      (_norm_alias c.name) c) k = _
  rw [aget_asetdefault, aget_aliasfold]
  rcases aget p.1 k with _ | w
  · rw [firstSome_none, firstSome_none]
    by_cases hal : k ∈ c.aliases.map _norm_alias
    · rw [if_pos hal, firstSome_some, if_pos (by simp [recordKeys, hal])]
    · rw [if_neg hal, firstSome_none]
      by_cases hn : _norm_alias c.name = k
      · rw [if_pos hn, if_pos (by simp [recordKeys, hn.symm])]
      · rw [if_neg hn, if_neg (by
          simp only [recordKeys, List.mem_cons]
          push_neg
          exact ⟨fun hh => hn hh.symm, hal⟩)]
  · rw [firstSome_some, firstSome_some, firstSome_some]

theorem buildStep_name (p : List (Str × Card) × List (Str × Card)) (c : Card) (k : Str) :
    aget (buildStep p c).2 k =
      if _norm_alias c.name = k then some c else aget p.2 k := by
  show aget (aset p.2 (_norm_alias c.name) c) k = _
  exact aget_aset _ _ _ _

theorem buildFold_alias (cards : List Card) :
    ∀ (p : List (Str × Card) × List (Str × Card)) (k : Str),
      aget (cards.foldl buildStep p).1 k =
        firstSome (aget p.1 k) (specFirstAlias cards k) := by
  induction cards with
  | nil =>
    intro p k
    show aget p.1 k = firstSome (aget p.1 k) none
    exact (firstSome_self _).symm
  | cons c rest ih =>
    intro p k
    rw [List.foldl_cons, ih, buildStep_alias]
    rcases aget p.1 k with _ | w
    · rw [firstSome_none, firstSome_none]
      by_cases h : k ∈ recordKeys c
      · rw [if_pos h, firstSome_some]
        show some c = if k ∈ recordKeys c then some c else specFirstAlias rest k
        rw [if_pos h]
      · rw [if_neg h, firstSome_none]
        show specFirstAlias rest k = if k ∈ recordKeys c then some c else specFirstAlias rest k
        rw [if_neg h]
    · rw [firstSome_some, firstSome_some, firstSome_some]

theorem buildFold_name (cards : List Card) :
    ∀ (p : List (Str × Card) × List (Str × Card)) (k : Str),
      aget (cards.foldl buildStep p).2 k =
        match specLastName cards k with
        | some c => some c
        | none => aget p.2 k := by
  induction cards with
  | nil => intro p k; rfl
  | cons c rest ih =>
    intro p k
    rw [List.foldl_cons, ih, buildStep_name]
    show _ = match specLastName (c :: rest) k with
      | some c' => some c'
      | none => aget p.2 k
    have hunf : specLastName (c :: rest) k =
        match specLastName rest k with
        | some c' => some c'
        | none => if _norm_alias c.name = k then some c else none := rfl
    rw [hunf]
    rcases specLastName rest k with _ | c'
    · by_cases h : _norm_alias c.name = k <;> simp [h]
    · rfl

-- ### Fuzzy-phase lemmas

theorem tupGt_trans {a b c : Int × Int × Int × Int} :
    tupGt a b → tupGt b c → tupGt a c := by
  unfold tupGt
  omega

theorem notGt_trans {a b c : Int × Int × Int × Int} :
    ¬ tupGt a b → ¬ tupGt b c → ¬ tupGt a c := by
  unfold tupGt
  omega

theorem fuzzyFold_cons (nt : Str) (k : Str) (ks : List Str)
    (best : Option Str × (Int × Int × Int × Int)) :
    fuzzyFold nt (k :: ks) best =
      fuzzyFold nt ks
        (if tupGt (scoreKey nt k) best.2 then (some k, scoreKey nt k) else best) := rfl

theorem fuzzyFold_shape (nt : Str) :
    ∀ (keys : List Str) (best : Option Str × (Int × Int × Int × Int)),
      fuzzyFold nt keys best = best ∨
        ∃ k ∈ keys, fuzzyFold nt keys best = (some k, scoreKey nt k) := by
  intro keys
  induction keys with
  | nil => intro best; left; rfl
  | cons k ks ih =>
    intro best
    rw [fuzzyFold_cons]
    by_cases hgt : tupGt (scoreKey nt k) best.2
    · rw [if_pos hgt]
      rcases ih (some k, scoreKey nt k) with h | ⟨k', hk', h⟩
      · right
        exact ⟨k, by simp, h⟩
      · right
        exact ⟨k', by simp [hk'], h⟩
    · rw [if_neg hgt]
      rcases ih best with h | ⟨k', hk', h⟩
      · left
        exact h
      · right
        exact ⟨k', by simp [hk'], h⟩

theorem fuzzyFold_max (nt : Str) :
    ∀ (keys : List Str) (best : Option Str × (Int × Int × Int × Int)),
      (∀ k ∈ keys, ¬ tupGt (scoreKey nt k) (fuzzyFold nt keys best).2) ∧
        ¬ tupGt best.2 (fuzzyFold nt keys best).2 := by
  intro keys
  induction keys with
  | nil =>
    intro best
    refine ⟨by simp, ?_⟩
    show ¬ tupGt best.2 best.2
    unfold tupGt
    omega
  | cons k ks ih =>
    intro best
    rw [fuzzyFold_cons]
    by_cases hgt : tupGt (scoreKey nt k) best.2
    · rw [if_pos hgt]
      obtain ⟨ihall, ihmono⟩ := ih (some k, scoreKey nt k)
      refine ⟨?_, ?_⟩
      · intro k' hk'
        rcases List.mem_cons.mp hk' with h | h
        · subst h
          exact ihmono
        · exact ihall k' h
      · intro habs
        exact ihmono (tupGt_trans hgt habs)
    · rw [if_neg hgt]
      obtain ⟨ihall, ihmono⟩ := ih best
      refine ⟨?_, ?_⟩
      · intro k' hk'
        rcases List.mem_cons.mp hk' with h | h
        · subst h
          exact notGt_trans hgt ihmono
        · exact ihall k' h
      · exact ihmono

theorem lookup_fuzzy_eq (idx : CardIndex) (token : Str) (h1 : token ≠ [])
    (h2 : aget idx.by_alias (_norm_alias token) = none) :
    idx.lookup token =
      match fuzzyFold (_norm_alias token) (akeys idx.by_alias) (none, initScore) with
      | (some best_key, best_score) =>
        if best_key ≠ [] ∧ gatePass best_score then aget idx.by_alias best_key else none
      | (none, _) => none := by
  unfold CardIndex.lookup
  rw [if_neg h1]
  simp only [h2]

theorem lookup_exact_eq (idx : CardIndex) (token : Str) (c : Card) (h1 : token ≠ [])
    (h2 : aget idx.by_alias (_norm_alias token) = some c) :
    idx.lookup token = some c := by
  unfold CardIndex.lookup
  rw [if_neg h1]
  simp only [h2]

-- ### Resolution-loop lemmas

theorem resolveLoop_cons (f : Str → Option Card) (t : Str) (ts seen : List Str)
    (res : List Card) :
    resolveLoop f (t :: ts) seen res =
      if _norm_alias t ∈ seen then resolveLoop f ts seen res
      else
        match f t with
        | some card =>
          if res.all (fun c => card.name ≠ c.name) then
            resolveLoop f ts (_norm_alias t :: seen) (res ++ [card])
          else resolveLoop f ts (_norm_alias t :: seen) res
        | none => resolveLoop f ts (_norm_alias t :: seen) res := rfl

theorem dedupNormAux_cons (t : Str) (ts seen : List Str) :
    dedupNormAux (t :: ts) seen =
      if _norm_alias t ∈ seen then dedupNormAux ts seen
      else t :: dedupNormAux ts (_norm_alias t :: seen) := rfl

theorem resolveLoop_dedup (f : Str → Option Card) :
    ∀ (toks seen : List Str) (res : List Card),
      resolveLoop f (dedupNormAux toks seen) seen res = resolveLoop f toks seen res := by
  intro toks
  induction toks with
  | nil => intro seen res; rfl
  | cons t ts ih =>
    intro seen res
    rw [dedupNormAux_cons]
    by_cases h : _norm_alias t ∈ seen
    · rw [if_pos h, ih, resolveLoop_cons, if_pos h]
    · rw [if_neg h, resolveLoop_cons, if_neg h, resolveLoop_cons, if_neg h]
      cases f t with
      | none => exact ih _ _
      | some card =>
        by_cases hall : res.all (fun c => card.name ≠ c.name)
        · simp only [hall, if_true]
          exact ih _ _
        · simp only [hall, Bool.false_eq_true, if_false]
          exact ih _ _

theorem handleLoop_cons (idx : CardIndex) (tok : Str) (toks seen results : List Str) :
    handleLoop idx (tok :: toks) seen results =
      if tok.map upChar ∈ seen then handleLoop idx toks seen results
      else
        match idx.lookup (strip tok) with
        | some card =>
          handleLoop idx toks (tok.map upChar :: seen)
            (results ++ [_format_card_for_discord card])
        | none => handleLoop idx toks (tok.map upChar :: seen) results := rfl

theorem dedupUpperAux_cons (t : Str) (ts seen : List Str) :
    dedupUpperAux (t :: ts) seen =
      if t.map upChar ∈ seen then dedupUpperAux ts seen
      else t :: dedupUpperAux ts (t.map upChar :: seen) := rfl

theorem handleLoop_dedup (idx : CardIndex) :
    ∀ (toks seen results : List Str),
      handleLoop idx (dedupUpperAux toks seen) seen results =
        handleLoop idx toks seen results := by
  intro toks
  induction toks with
  | nil => intro seen results; rfl
  | cons t ts ih =>
    intro seen results
    rw [dedupUpperAux_cons]
    by_cases h : t.map upChar ∈ seen
    · rw [if_pos h, ih, handleLoop_cons, if_pos h]
    · rw [if_neg h, handleLoop_cons, if_neg h, handleLoop_cons, if_neg h]
      cases idx.lookup (strip t) with
      | none => exact ih _ _
      | some card => exact ih _ _

theorem resolveLoop_pairwise (f : Str → Option Card) :
    ∀ (toks seen : List Str) (res : List Card),
      List.Pairwise (fun a b : Card => a.name ≠ b.name) res →
      List.Pairwise (fun a b : Card => a.name ≠ b.name) (resolveLoop f toks seen res) := by
  intro toks
  induction toks with
  | nil => intro seen res h; exact h
  | cons t ts ih =>
    intro seen res h
    rw [resolveLoop_cons]
    by_cases hmem : _norm_alias t ∈ seen
    · rw [if_pos hmem]
      exact ih seen res h
    · rw [if_neg hmem]
      cases hft : f t with
      | none => exact ih _ res h
      | some card =>
        by_cases hall : res.all (fun c => card.name ≠ c.name)
        · simp only [hall, if_true]
          refine ih _ _ (List.pairwise_append.mpr ⟨h, List.pairwise_singleton _ _, ?_⟩)
          intro a ha b hb
          have hb' : b = card := by simpa using hb
          have hall' : ∀ c ∈ res, card.name ≠ c.name := by
            simpa [List.all_eq_true] using hall
          rw [hb']
          exact (hall' a ha).symm
        · simp only [hall, Bool.false_eq_true, if_false]
          exact ih _ res h

-- ### Extraction lemmas

theorem scanBracketF_chars :
    ∀ (fuel : Nat) (s : Str),
      ∀ t ∈ scanBracketF fuel s, ∀ c ∈ t, ¬(c = '[' ∨ c = ']' ∨ c = '\n') := by
  intro fuel
  induction fuel with
  | zero => intro s t ht; cases s <;> simp [scanBracketF] at ht
  | succ n ih =>
    intro s t ht c hc
    cases s with
    | nil => simp [scanBracketF] at ht
    | cons c0 rest =>
      rw [scanBracketF] at ht
      by_cases h0 : c0 = '['
      · rw [if_pos h0] at ht
        set run := (rest.takeWhile fun ch => ¬(ch = '[' ∨ ch = ']' ∨ ch = '\n')).take 40 with hrun
        by_cases hcond : (rest.drop run.length).take 1 = [']'] ∧
            1 ≤ run.length ∧ headParen (rest.drop (run.length + 1)) = false
        · rw [if_pos hcond] at ht
          rcases List.mem_cons.mp ht with h | h
          · subst h
            have hc1 : c ∈ rest.takeWhile fun ch => ¬(ch = '[' ∨ ch = ']' ∨ ch = '\n') := by
              have := hc
              rw [hrun] at this
              exact (List.take_sublist _ _).subset this
            have := List.mem_takeWhile_imp hc1
            simpa using this
          · exact ih _ t h c hc
        · rw [if_neg hcond] at ht
          exact ih _ t ht c hc
      · rw [if_neg h0] at ht
        exact ih _ t ht c hc

theorem scanBracket_chars (s : Str) :
    ∀ t ∈ scanBracket s, ∀ c ∈ t, ¬(c = '[' ∨ c = ']' ∨ c = '\n') :=
  scanBracketF_chars s.length s

-- ### Store lemmas

theorem load_all_snoc (rows : List (Str × Str)) (row : Str × Str) :
    _load_all (rows ++ [row]) =
      (if strip row.1 = [] ∨ strip row.2 = [] then _load_all rows
       else _add_in_memory (_load_all rows) (strip row.1) (strip row.2)) := by
  unfold _load_all
  rw [List.foldl_append]
  rfl

-- ### Claim theorems

/-- C1, counterexample: the claim asserts first-registration-wins for `by_name`
as well, but `CardIndex.build` uses plain dict assignment for `by_name`; with
two records sharing a normalized name, `by_name` keeps the *second* record. -/
theorem claim_C1_counterexample :
    aget (CardIndex.build [swpFirst, swpSecond]).by_name (_norm_alias swpFirst.name)
        = some swpSecond ∧ swpSecond ≠ swpFirst := by
  constructor
  · decide
  · decide

/-- C1 (amended): for every finite record list, `by_alias` follows the
first-registration-wins policy over each record's normalized name and aliases
(`specFirstAlias`), while `by_name` keeps the *last* record whose normalized
name is the key (`specLastName`, plain assignment semantics). -/
theorem claim_C1_amended (cards : List Card) (k : Str) :
    aget (CardIndex.build cards).by_alias k = specFirstAlias cards k ∧
    aget (CardIndex.build cards).by_name k = specLastName cards k := by
  constructor
  · show aget (cards.foldl buildStep ([], [])).1 k = _
    rw [buildFold_alias]
    rfl
  · show aget (cards.foldl buildStep ([], [])).2 k = _
    rw [buildFold_name]
    cases h : specLastName cards k <;> rfl

/-- C2, counterexample: the Discord pipeline (`handle_message`'s token loop)
dedups tokens only; with one record reachable via its name and via an alias,
the same record's block is included twice for one input text. -/
theorem claim_C2_counterexample :
    handleLoop amIndex
        (extract_triggers "I like [[Asteroid Mining]] and [[Space Miner]]".toList) [] []
      = [_format_card_for_discord amCard, _format_card_for_discord amCard] := by
  decide

/-- C2 (amended): the Reddit pipeline `resolve_cards_for_comment` never
returns two records with the same name — so never the same record twice, even
via different aliases — and the "Asteroid Mining"/"Space Miner" example
resolves to exactly one record; the Discord `handle_message` loop dedups
tokens only and can include the same record twice (see the counterexample). -/
theorem claim_C2_amended (text : Str) (f : Str → Option Card) :
    List.Pairwise (fun a b : Card => a.name ≠ b.name) (resolve_cards_for_comment text f) ∧
    resolve_cards_for_comment "I like [[Asteroid Mining]] and [[Space Miner]]".toList
        (fun tok => amIndex.lookup tok) = [amCard] := by
  constructor
  · exact resolveLoop_pairwise f _ [] [] List.Pairwise.nil
  · decide

/-- C3: in the fuzzy phase (normalized token absent from `by_alias`), any
returned record belongs to a maximum-scoring key (under the lexicographic
4-tuple `(prefix_len, -edit_dist, substr_len, key_len)`) that passes the
acceptance gate `prefix_len > 0 ∨ substr_len > 0 ∨ edit_dist ≤ 2`; and if
every key fails the gate — in particular when the token shares no word-prefix
nor substring with any key and every edit distance exceeds 2 — the lookup
returns none. -/
theorem claim_C3 (idx : CardIndex) (token : Str) (h1 : token ≠ [])
    (h2 : aget idx.by_alias (_norm_alias token) = none) :
    (∀ c, idx.lookup token = some c →
      ∃ k, k ∈ akeys idx.by_alias ∧ k ≠ [] ∧ aget idx.by_alias k = some c ∧
        (∀ j ∈ akeys idx.by_alias,
          ¬ tupGt (scoreKey (_norm_alias token) j) (scoreKey (_norm_alias token) k)) ∧
        gatePass (scoreKey (_norm_alias token) k)) ∧
    ((∀ k ∈ akeys idx.by_alias, ¬ gatePass (scoreKey (_norm_alias token) k)) →
      idx.lookup token = none) := by
  have hlu := lookup_fuzzy_eq idx token h1 h2
  rcases fuzzyFold_shape (_norm_alias token) (akeys idx.by_alias) (none, initScore)
    with hsh | ⟨k, hk, hsh⟩
  · rw [hsh] at hlu
    have hlu2 : idx.lookup token = none := hlu
    constructor
    · intro c hc
      rw [hlu2] at hc
      cases hc
    · intro _
      exact hlu2
  · rw [hsh] at hlu
    have hlu2 : idx.lookup token =
        if k ≠ [] ∧ gatePass (scoreKey (_norm_alias token) k) then aget idx.by_alias k
        else none := hlu
    have hmax := (fuzzyFold_max (_norm_alias token) (akeys idx.by_alias) (none, initScore)).1
    rw [hsh] at hmax
    constructor
    · intro c hc
      rw [hlu2] at hc
      by_cases hcond : k ≠ [] ∧ gatePass (scoreKey (_norm_alias token) k)
      · rw [if_pos hcond] at hc
        exact ⟨k, hk, hcond.1, hc, fun j hj => hmax j hj, hcond.2⟩
      · rw [if_neg hcond] at hc
        cases hc
    · intro hall
      rw [hlu2, if_neg (fun hcond => hall k hk hcond.2)]

/-- C3 witness: a two-letter token against a single six-letter key shares no
prefix or substring and has edit distance 6, so the fuzzy phase rejects. -/
theorem claim_C3_witness : CardIndex.lookup qqIndex "AB".toList = none :=
  (claim_C3 qqIndex "AB".toList (by decide) (by decide)).2 (by decide)

/-- C4: when the normalized token is a literal key of `by_alias`, `lookup`
returns that key's record immediately, for every index state (so regardless
of any fuzzy candidate). -/
theorem claim_C4 (idx : CardIndex) (token : Str) (c : Card) (h1 : token ≠ [])
    (h2 : aget idx.by_alias (_norm_alias token) = some c) :
    idx.lookup token = some c :=
  lookup_exact_eq idx token c h1 h2

/-- C4 witness: "Space  miner" normalizes to the alias key "SPACE MINER". -/
theorem claim_C4_witness : amIndex.lookup "Space  miner".toList = some amCard :=
  claim_C4 amIndex "Space  miner".toList amCard (by decide) (by decide)

/-- C10: the empty token short-circuits to none before both lookup phases,
for every index state. -/
theorem claim_C10 (idx : CardIndex) : idx.lookup [] = none := rfl

/-- C5: `add_alias` is atomic with respect to append I/O failure: for a
genuinely new, non-empty pair, a failing durable append propagates as
`Except.error` and both the file and the in-memory maps are exactly the
pre-call state (the source updates memory only after the append succeeds). -/
theorem claim_C5 (st : CustomAliasStore) (name al : Str)
    (hn : strip name ≠ []) (ha : strip al ≠ [])
    (hnew : (casefold (strip name), casefold (strip al)) ∉ st.mem.seen_lower) :
    add_alias st name al false = (st, Except.error ()) := by
  simp only [add_alias]
  rw [if_neg (by push_neg; exact ⟨hn, ha⟩), if_neg hnew]
  simp

/-- C5 witness. -/
theorem claim_C5_witness :
    add_alias emptyStore ctcName ctcAlias false = (emptyStore, Except.error ()) :=
  claim_C5 emptyStore ctcName ctcAlias (by decide) (by decide) (by decide)

/-- C6: teaching is idempotent over the case-insensitive (name, alias) pair:
the first `add_alias` on a new non-empty pair returns inserted; any repeat of
the same pair in any letter case returns duplicate with no state change (in
particular no file write, whatever the append flag); and replaying the ledger
from disk reproduces the in-memory state, with exactly one seen-entry for the
pair. -/
theorem claim_C6 (st : CustomAliasStore) (name al name2 al2 : Str)
    (hn : strip name ≠ []) (ha : strip al ≠ [])
    (hnew : (casefold (strip name), casefold (strip al)) ∉ st.mem.seen_lower)
    (hcons : st.mem = _load_all st.file)
    (hn2 : casefold (strip name2) = casefold (strip name))
    (ha2 : casefold (strip al2) = casefold (strip al)) :
    (add_alias st name al true).2 = Except.ok true ∧
    (∀ ok2 : Bool, add_alias (add_alias st name al true).1 name2 al2 ok2
        = ((add_alias st name al true).1, Except.ok false)) ∧
    _load_all (add_alias st name al true).1.file = (add_alias st name al true).1.mem ∧
    List.count (casefold (strip name), casefold (strip al))
        (add_alias st name al true).1.mem.seen_lower = 1 := by
  have h1 : add_alias st name al true =
      ({ file := st.file ++ [(strip name, strip al)],
         mem := _add_in_memory st.mem (strip name) (strip al) }, Except.ok true) := by
    simp only [add_alias]
    rw [if_neg (by push_neg; exact ⟨hn, ha⟩), if_neg hnew]
    simp
  have hmem : _add_in_memory st.mem (strip name) (strip al) =
      { seen_lower := st.mem.seen_lower ++ [(casefold (strip name), casefold (strip al))],
        aliases_by_name := mapSetAdd st.mem.aliases_by_name (strip name) (strip al) } := by
    simp only [_add_in_memory]
    rw [if_neg hnew]
  refine ⟨by rw [h1], ?_, ?_, ?_⟩
  · intro ok2
    rw [h1]
    simp only [add_alias]
    have hne2 : ¬(strip name2 = [] ∨ strip al2 = []) := by
      push_neg
      constructor
      · intro h
        apply hn
        have h2 : casefold (strip name) = [] := by
          rw [← hn2, h]
          rfl
        exact  List.map_eq_nil_iff.mp h2
      · intro h
        apply ha
        have h2 : casefold (strip al) = [] := by
          rw [← ha2, h]
          rfl
        exact  List.map_eq_nil_iff.mp h2
    rw [if_neg hne2]
    have hkey2 : (casefold (strip name2), casefold (strip al2)) ∈
        (_add_in_memory st.mem (strip name) (strip al)).seen_lower := by
      rw [hmem]
      simp [hn2, ha2]
    rw [if_pos hkey2]
  · rw [h1]
    show _load_all (st.file ++ [(strip name, strip al)]) = _
    rw [load_all_snoc]
    rw [if_neg (by
      push_neg
      refine ⟨?_, ?_⟩
      · show strip (strip name) ≠ []
        rw [strip_idem]
        exact hn
      · show strip (strip al) ≠ []
        rw [strip_idem]
        exact ha)]
    show _add_in_memory (_load_all st.file) (strip (strip name)) (strip (strip al)) = _
    rw [strip_idem, strip_idem, ← hcons]
  · rw [h1]
    show List.count _ (_add_in_memory st.mem (strip name) (strip al)).seen_lower = 1
    rw [hmem]
    show List.count _ (st.mem.seen_lower ++ [_]) = 1
    rw [List.count_append, List.count_eq_zero.mpr hnew]
    simp

/-- C6 witness: teaching ("Colonizer Training Camp", "CTC") to an empty
ledger, then re-teaching it in lower case. -/
theorem claim_C6_witness :
    (add_alias emptyStore ctcName ctcAlias true).2 = Except.ok true ∧
    add_alias (add_alias emptyStore ctcName ctcAlias true).1 ctcName2 ctcAlias2 true
      = ((add_alias emptyStore ctcName ctcAlias true).1, Except.ok false) ∧
    _load_all (add_alias emptyStore ctcName ctcAlias true).1.file
      = (add_alias emptyStore ctcName ctcAlias true).1.mem ∧
    List.count (casefold (strip ctcName), casefold (strip ctcAlias))
      (add_alias emptyStore ctcName ctcAlias true).1.mem.seen_lower = 1 := by
  have h := claim_C6 emptyStore ctcName ctcAlias ctcName2 ctcAlias2
    (by decide) (by decide) (by decide) rfl (by decide) (by decide)
  exact ⟨h.1, h.2.1 true, h.2.2.1, h.2.2.2⟩

/-- Tokens of the Discord fallback extractor are trimmed and non-empty. -/
theorem fallback_tokens (raw : Str) :
    ∀ tok ∈ _extract_fallback_token_list raw, strip tok = tok ∧ tok ≠ [] := by
  intro tok h
  simp only [_extract_fallback_token_list] at h
  split at h
  · cases h
  · split at h
    · cases h
    · split at h
      · cases h
      · split at h
        · cases h
        · rcases List.mem_filter.mp h with ⟨hmem, _⟩
          rcases List.mem_filter.mp hmem with ⟨hmem2, hne⟩
          rcases List.mem_map.mp hmem2 with ⟨raw2, _, rfl⟩
          exact ⟨strip_idem raw2, by simpa using hne⟩

/-- C7, counterexample: the double-bracket extractor `extract_triggers`
emits tokens containing URL schemes (its primary path has no URL filter, no
40-character cap and no newline exclusion). -/
theorem claim_C7_counterexample :
    extract_triggers "[[https://x]]".toList = ["https://x".toList] ∧
    containsHttp "https://x".toList = true := by
  constructor
  · decide
  · decide

/-- C7 (amended): every token of the single-bracket extractor
`extract_aliases` is trimmed, 1–40 characters, free of brackets and newlines,
and never contains `http://`/`https://`; the double-bracket extractor
`extract_triggers` guarantees only that its tokens are trimmed and non-empty
(the counterexample shows it does not enforce the URL/length/newline
constraints). -/
theorem claim_C7_amended (body msg tok1 tok2 : Str)
    (h1 : tok1 ∈ extract_aliases body) (h2 : tok2 ∈ extract_triggers msg) :
    (strip tok1 = tok1 ∧ 1 ≤ tok1.length ∧ tok1.length ≤ 40 ∧
      (∀ c ∈ tok1, ¬(c = '[' ∨ c = ']' ∨ c = '\n')) ∧ containsHttp tok1 = false) ∧
    (strip tok2 = tok2 ∧ tok2 ≠ []) := by
  constructor
  · simp only [extract_aliases] at h1
    split at h1
    · cases h1
    · rcases List.mem_filter.mp h1 with ⟨hmem, hpred⟩
      rcases List.mem_map.mp hmem with ⟨raw, hraw, rfl⟩
      have hpred' : containsHttp (strip raw) = false ∧
          1 ≤ (strip raw).length ∧ (strip raw).length ≤ 40 := by
        simpa [Bool.and_eq_true, Bool.not_eq_true', decide_eq_true_eq, and_assoc]
          using hpred
      refine ⟨strip_idem raw, hpred'.2.1, hpred'.2.2, ?_, hpred'.1⟩
      intro c hc
      exact scanBracket_chars body raw hraw c ((strip_sublist raw).subset hc)
  · simp only [extract_triggers] at h2
    split at h2
    · rcases List.mem_filter.mp h2 with ⟨hmem2, hne⟩
      rcases List.mem_map.mp hmem2 with ⟨raw2, _, rfl⟩
      exact ⟨strip_idem raw2, by simpa using hne⟩
    · exact fallback_tokens msg tok2 h2

/-- C7 witness: a concrete message exercising both extractors. -/
theorem claim_C7_witness :
    (strip "CTC".toList = "CTC".toList ∧ 1 ≤ "CTC".toList.length ∧
      "CTC".toList.length ≤ 40 ∧
      (∀ c ∈ "CTC".toList, ¬(c = '[' ∨ c = ']' ∨ c = '\n')) ∧
      containsHttp "CTC".toList = false) ∧
    (strip "Livestock".toList = "Livestock".toList ∧ "Livestock".toList ≠ []) :=
  claim_C7_amended "see [CTC]".toList "[[Livestock]]".toList
    "CTC".toList "Livestock".toList (by decide) (by decide)

/-- C8, counterexample: the extractor itself does not deduplicate: two
single-bracket tokens that are normalized-equal both appear in
`extract_aliases`' returned list. -/
theorem claim_C8_counterexample :
    extract_aliases "[A] [a]".toList = ["A".toList, "a".toList] ∧
    _norm_alias "a".toList = _norm_alias "A".toList := by
  constructor
  · decide
  · decide

/-- C8 (amended): the extractor output preserves appearance order but keeps
normalized-equal duplicates; dedup happens in the resolution loops, each
over its own key. `resolve_cards_for_comment`'s loop processes exactly the
`_norm_alias`-deduplicated token list (case-insensitive with whitespace
folding), while `handle_message`'s loop processes exactly the
`tok.upper()`-deduplicated token list — no whitespace folding, so there a
token `_norm_alias`-equal to an earlier one that differs in internal
whitespace is not skipped: `[[Space Miner]] [[Space  Miner]]` produces the
same card's block twice. -/
theorem claim_C8_amended (text msg : Str) (f : Str → Option Card) (idx : CardIndex) :
    resolve_cards_for_comment text f =
      resolveLoop f (dedupNormAux (extract_aliases text) []) [] [] ∧
    handleLoop idx (extract_triggers msg) [] [] =
      handleLoop idx (dedupUpperAux (extract_triggers msg) []) [] [] ∧
    handleLoop amIndex (extract_triggers "[[Space Miner]] [[Space  Miner]]".toList) [] []
      = [_format_card_for_discord amCard, _format_card_for_discord amCard] := by
  refine ⟨(resolveLoop_dedup f (extract_aliases text) [] []).symm,
    (handleLoop_dedup idx (extract_triggers msg) [] []).symm, ?_⟩
  decide

/-- C9: the normalizer `_norm_alias` (fold internal whitespace runs, trim,
upper-case) is idempotent. -/
theorem claim_C9 (s : Str) : _norm_alias (_norm_alias s) = _norm_alias s :=
  norm_alias_idem s
